import Mathlib

/-!
# Verification of the autocorrect engine

A shallow embedding of the correction engine of `src/main.js`:
the sift3 approximate string distance, the BK-tree index built over the
dictionary, the breadth-first pruned search, the confidence ranking and
the FIFO-bounded result cache, together with the engine construction
pipeline (dictionary load and tree build, with their lifecycle events).

Modelling conventions:
* JS strings are `List Char`; `String.prototype.toLowerCase` is mapped
  character-wise.
* JS `Map` objects are insertion-ordered association lists with unique
  keys (`jsGet`, `jsSet`, `jsDelete` mirror `get` / `set` / `delete`).
* JS numbers are rationals `ℚ`.  All arithmetic the engine performs on
  distances is exact in binary floating point (halves of small integers),
  so `ℚ` is faithful there.  `Math.log1p` is transcendental and is kept
  abstract: ranking takes an arbitrary `log1p : ℚ → ℚ` parameter, and the
  float literals `1.2`, `0.7`, `0.3` are idealised as the rationals they
  denote.  No claim below depends on the numeric value of a confidence.
* The external word source (`popular-english-words`) is out of scope and
  is passed in as an `Except Unit (List Str)` outcome: `.ok ws` is a
  successful `getMostPopular` call returning `ws`, `.error ()` is the
  source throwing (caught by `loadDictionary`).
-/

set_option maxHeartbeats 1000000
set_option linter.unnecessarySeqFocus false
set_option linter.unnecessarySimpa false

namespace AutoCorrect

/-- Characters of a JS string. -/
abbrev Str := List Char

/-! ## JS `Map` as an insertion-ordered association list -/

/-- `Map.prototype.get`: value at the key, if present. -/
def jsGet {κ α : Type} [DecidableEq κ] : List (κ × α) → κ → Option α
  | [], _ => none
  | (k, v) :: r, q => if k = q then some v else jsGet r q

/-- `Map.prototype.has`. -/
def jsHas {κ α : Type} [DecidableEq κ] (m : List (κ × α)) (q : κ) : Bool :=
  (jsGet m q).isSome

/-- `Map.prototype.set`: update in place if the key exists (keeping its
position in insertion order), otherwise append at the end. -/
def jsSet {κ α : Type} [DecidableEq κ] : List (κ × α) → κ → α → List (κ × α)
  | [], q, v => [(q, v)]
  | (k, w) :: r, q, v => if k = q then (k, v) :: r else (k, w) :: jsSet r q v

/-- `Map.prototype.delete`: remove the entry at the key, if any. -/
def jsDelete {κ α : Type} [DecidableEq κ] : List (κ × α) → κ → List (κ × α)
  | [], _ => []
  | (k, w) :: r, q => if k = q then r else (k, w) :: jsDelete r q

/-- `String.prototype.toLowerCase`, character-wise. -/
def jsToLower (s : Str) : Str := s.map Char.toLower

/-! ## The sift3 distance (`_sift3Distance`) -/

/-- The inner realignment scan of `_sift3Distance`: starting at window
offset `i` with `fuel` window positions left (the loop runs `maxOffset`
iterations), find the first offset realigning `s1` against `s2[c]` (giving
`(i, 0)`) or `s2` against `s1[c]` (giving `(0, i)`); `(0, 0)` if none. -/
def scanOffsets (s1 s2 : Str) (c : Nat) : Nat → Nat → Nat × Nat
  | _, 0 => (0, 0)
  | i, fuel + 1 =>
    if c + i < s1.length ∧ s1.getD (c + i) ' ' = s2.getD c ' ' then (i, 0)
    else if c + i < s2.length ∧ s1.getD c ' ' = s2.getD (c + i) ' ' then (0, i)
    else scanOffsets s1 s2 c (i + 1) fuel

/-- The body of the main `while` loop of `_sift3Distance`, recursing on
the number `s1.length - c` of cursor positions left (the loop advances
`c` by one per iteration and its guard requires `c + offset1 < s1.length`,
so this fuel is exact; see `sift3Loop_eq` for the loop equation). -/
def sift3Go (s1 s2 : Str) (maxOffset : Nat) :
    Nat → Nat → Nat → Nat → Nat → Nat
  | 0, _, _, _, lcs => lcs
  | fuel + 1, c, offset1, offset2, lcs =>
    if c + offset1 < s1.length ∧ c + offset2 < s2.length then
      if s1.getD (c + offset1) ' ' = s2.getD (c + offset2) ' ' then
        sift3Go s1 s2 maxOffset fuel (c + 1) offset1 offset2 (lcs + 1)
      else
        sift3Go s1 s2 maxOffset fuel (c + 1) (scanOffsets s1 s2 c 0 maxOffset).1
          (scanOffsets s1 s2 c 0 maxOffset).2 lcs
    else lcs

/-- The main `while` loop of `_sift3Distance`, returning the final value
of the `lcs` counter. -/
def sift3Loop (s1 s2 : Str) (maxOffset c offset1 offset2 lcs : Nat) : Nat :=
  sift3Go s1 s2 maxOffset (s1.length - c) c offset1 offset2 lcs

/-- `_sift3Distance(s1, s2)` with the default window `maxOffset = 5`
(no caller of the engine ever passes a different window). -/
def sift3Distance (s1 s2 : Str) : ℚ :=
  if s1.length = 0 then s2.length
  else if s2.length = 0 then s1.length
  else (s1.length + s2.length : ℚ) / 2 - sift3Loop s1 s2 5 0 0 0 0

/-! ## The BK-tree -/

/-- A node of the BK-tree (`class BKNode`): word, frequency, and the
children `Map` keyed by the distance recorded at insertion time. -/
inductive BKNode : Type where
  | node : Str → ℚ → List (ℚ × BKNode) → BKNode

/-- The node's word. -/
def BKNode.word : BKNode → Str
  | .node w _ _ => w

/-- The node's frequency. -/
def BKNode.frequency : BKNode → ℚ
  | .node _ f _ => f

/-- The node's children map. -/
def BKNode.children : BKNode → List (ℚ × BKNode)
  | .node _ _ cs => cs

mutual

/-- Number of nodes in the tree. -/
def BKNode.count : BKNode → Nat
  | .node _ _ cs => 1 + countList cs

/-- Number of nodes in a children list. -/
def countList : List (ℚ × BKNode) → Nat
  | [] => 0
  | (_, c) :: rest => c.count + countList rest

end

mutual

/-- All (word, frequency) pairs stored in the tree. -/
def BKNode.words : BKNode → List (Str × ℚ)
  | .node w f cs => (w, f) :: wordsList cs

/-- All (word, frequency) pairs stored in a children list. -/
def wordsList : List (ℚ × BKNode) → List (Str × ℚ)
  | [] => []
  | (_, c) :: rest => c.words ++ wordsList rest

end

mutual

/-- `_insertIntoBKTree`: recursive descent; a zero distance discards the
new word, an existing child at the exact distance key receives the
recursive insertion, and otherwise a fresh leaf is attached at that key. -/
def insertIntoBKTree (n : BKNode) (w : Str) (f : ℚ) : BKNode :=
  match n with
  | .node nw nf cs =>
    if sift3Distance nw w = 0 then .node nw nf cs
    else .node nw nf (insertChild cs (sift3Distance nw w) w f)

/-- The effect of `children.get(d)` followed by either the recursive
insertion into the found child (updated in place) or `children.set(d, leaf)`
(appended at the end), as a single pass over the association list. -/
def insertChild (cs : List (ℚ × BKNode)) (d : ℚ) (w : Str) (f : ℚ) :
    List (ℚ × BKNode) :=
  match cs with
  | [] => [(d, .node w f [])]
  | (k, c) :: rest =>
    if k = d then (k, insertIntoBKTree c w f) :: rest
    else (k, c) :: insertChild rest d w f

end

/-! ## Breadth-first pruned search (`_searchBKTree`) -/

/-- A search hit as pushed by `_searchBKTree`:
`{ word: node.word, distance, frequency: node.frequency }`. -/
structure Candidate : Type where
  word : Str
  distance : ℚ
  frequency : ℚ
deriving DecidableEq, Repr

/-- The pruning test of `_searchBKTree`:
`dist >= searchMin && dist <= searchMax` with `searchMin = d - maxDistance`
and `searchMax = d + maxDistance`, applied to a child entry's branch key. -/
def keyInRange (d maxDistance : ℚ) (p : ℚ × BKNode) : Bool :=
  decide (d - maxDistance ≤ p.1) && decide (p.1 ≤ d + maxDistance)

/-- One dequeue step of the `_searchBKTree` loop: record the node when
its distance to the query is within `maxDistance`, and enqueue at the
back every child whose branch key lies in
`[d - maxDistance, d + maxDistance]`, recursing on a fuel that bounds the
number of nodes still reachable from the queue (each step consumes the
dequeued node and enqueues a subset of its children, so the total node
count of the queue strictly decreases; see `searchGo_cons` for the loop
equation). -/
def searchFuel (query : Str) (maxDistance : ℚ) :
    Nat → List BKNode → List Candidate → List Candidate
  | _, [], results => results
  | 0, _ :: _, results => results
  | fuel + 1, n :: rest, results =>
    searchFuel query maxDistance fuel
      (rest ++ (n.children.filter
        (keyInRange (sift3Distance n.word query) maxDistance)).map Prod.snd)
      (if sift3Distance n.word query ≤ maxDistance then
        results ++ [⟨n.word, sift3Distance n.word query, n.frequency⟩]
      else results)

/-- The `while (candidates.length > 0)` loop of `_searchBKTree`, seeded
with the exact fuel. -/
def searchGo (query : Str) (maxDistance : ℚ)
    (queue : List BKNode) (results : List Candidate) : List Candidate :=
  searchFuel query maxDistance ((queue.map BKNode.count).sum) queue results

/-- `_searchBKTree(queryWord, maxDistance)`: empty when the tree has no
root, otherwise the queue loop seeded with the root. -/
def searchBKTree (tree : Option BKNode) (queryWord : Str) (maxDistance : ℚ) :
    List Candidate :=
  match tree with
  | none => []
  | some root => searchGo queryWord maxDistance [root] []

/-! ## Ranking and the correction engine -/

/-- A suggestion record.  The exact-match path builds
`{ word, distance: 0, confidence: 1.0 }` (no `frequency` field, hence
`frequency := none`); the search path spreads the candidate, so its
records also carry `frequency := some f`. -/
structure Correction : Type where
  word : Str
  distance : ℚ
  confidence : ℚ
  frequency : Option ℚ
deriving DecidableEq, Repr

/-- Engine configuration (`this.config`). -/
structure Config : Type where
  dictionarySize : Nat
  maxEditDistance : ℚ
  cacheSize : Nat
deriving DecidableEq, Repr

/-- The mutable state of `AutoCorrectEngine`. -/
structure Engine : Type where
  config : Config
  dictionary : List (Str × ℚ)
  maxFrequency : ℚ
  bkTree : Option BKNode
  cache : List (Str × List Correction)

/-- The per-candidate scoring of `getCorrections`, with `Math.log1p`
abstracted as `log1p` and `0.7` / `0.3` idealised as rationals. -/
def rankCandidate (log1p : ℚ → ℚ) (maxFrequency : ℚ) (queryLen : Nat)
    (c : Candidate) : Correction :=
  { word := c.word, distance := c.distance,
    confidence := 7 / 10 * (log1p c.frequency / log1p maxFrequency) +
      3 / 10 * (1 - c.distance / (max queryLen c.word.length : ℚ)),
    frequency := some c.frequency }

/-- The order the sort comparator `(a, b) => b.confidence - a.confidence`
establishes: `a` may precede `b` iff `b.confidence ≤ a.confidence`. -/
def confGe (a b : Correction) : Prop := b.confidence ≤ a.confidence

instance : DecidableRel confGe := fun a b =>
  inferInstanceAs (Decidable (b.confidence ≤ a.confidence))

instance : IsTotal Correction confGe :=
  ⟨fun a b => le_total b.confidence a.confidence⟩

instance : IsTrans Correction confGe :=
  ⟨fun _ _ _ h1 h2 => le_trans h2 h1⟩

/-- `candidates.map(rank).sort((a, b) => b.confidence - a.confidence).slice(0, 5)`.
JS `Array.prototype.sort` is a stable sort, so a stable insertion sort
produces the identical list. -/
def rankResults (log1p : ℚ → ℚ) (maxFrequency : ℚ) (lowerCaseWord : Str)
    (candidates : List Candidate) : List Correction :=
  ((candidates.map (rankCandidate log1p maxFrequency lowerCaseWord.length)).insertionSort
    confGe).take 5

/-- The eviction step of `getCorrections`: when
`cache.size >= cacheSize`, delete the entry at the first key in insertion
order (on an empty cache the first key is `undefined` and `delete` is a
no-op). -/
def cacheEvict (cache : List (Str × List Correction)) (cacheSize : Nat) :
    List (Str × List Correction) :=
  if cacheSize ≤ cache.length then
    match cache with
    | [] => cache
    | (k, _) :: _ => jsDelete cache k
  else cache

/-- `getCorrections(word)`, returning the result list together with the
engine state after the call (only `cache` is ever mutated). -/
def getCorrections (log1p : ℚ → ℚ) (e : Engine) (word : Str) :
    List Correction × Engine :=
  let lowerCaseWord := jsToLower word
  match jsGet e.cache lowerCaseWord with
  | some cached => (cached, e)
  | none =>
    if jsHas e.dictionary lowerCaseWord then
      ([{ word := word, distance := 0, confidence := 1, frequency := none }], e)
    else
      let rankedResults := rankResults log1p e.maxFrequency lowerCaseWord
        (searchBKTree e.bkTree lowerCaseWord e.config.maxEditDistance)
      let newCache := jsSet (cacheEvict e.cache e.config.cacheSize)
        lowerCaseWord rankedResults
      (rankedResults, { e with cache := newCache })

/-! ## Construction: `loadDictionary` and `buildBKTree` -/

/-- Lifecycle events emitted on the engine's event bus. -/
inductive EngineEvent : Type where
  | dictionaryLoaded : Nat → EngineEvent
  | bkTreeBuilt : Nat → EngineEvent
deriving DecidableEq, Repr

/-- `word.length > 1 && /^[a-z]+$/.test(word)` (the length bound makes the
non-emptiness the regex also demands redundant). -/
def validWord (w : Str) : Bool :=
  decide (1 < w.length) && w.all (fun ch => 'a' ≤ ch && ch ≤ 'z')

/-- The fixed boost list of `loadDictionary`. -/
def technicalTerms : List Str :=
  (["javascript", "algorithm", "function", "variable", "console", "terminal",
    "autocorrect", "suggestion", "correction", "dictionary", "search", "fuzzy",
    "distance", "cache", "performance", "optimization", "implementation",
    "architecture", "efficient", "structure", "application", "system",
    "interface", "experience", "machine", "learning", "programming",
    "development", "software", "computer", "debugging", "testing", "hello"
   ] : List String).map String.toList

/-- `popularWords.forEach((word, index) => ...)`: ingest the valid words,
scored `maxFrequency - index`. -/
def ingestPopular (maxFrequency : ℚ) :
    List Str → Nat → List (Str × ℚ) → List (Str × ℚ)
  | [], _, dict => dict
  | w :: rest, index, dict =>
    ingestPopular maxFrequency rest (index + 1)
      (if validWord w then jsSet dict w (maxFrequency - index) else dict)

/-- The dictionary contents after a successful load: the valid popular
words scored `maxFrequency - index`, overlaid with the boost list at
`maxFrequency * 1.2` (idealised as `12 / 10`), where
`maxFrequency = popularWords.length`. -/
def builtDictionary (popularWords : List Str) : List (Str × ℚ) :=
  technicalTerms.foldl
    (fun d t => jsSet d t ((popularWords.length : ℚ) * (12 / 10)))
    (ingestPopular (popularWords.length : ℚ) popularWords 0 [])

/-- `loadDictionary()`: returns the dictionary, `maxFrequency`, and the
events emitted.  When the external source throws, the `catch` only logs:
the dictionary stays empty, `maxFrequency` stays `0`, and no event is
emitted. -/
def loadDictionary (source : Except Unit (List Str)) :
    List (Str × ℚ) × ℚ × List EngineEvent :=
  match source with
  | .error _ => ([], 0, [])
  | .ok popularWords =>
    (builtDictionary popularWords, (popularWords.length : ℚ),
     [.dictionaryLoaded (builtDictionary popularWords).length])

/-- `buildBKTree()`: no-op on an empty dictionary (no event); otherwise
the first dictionary entry becomes the root, the rest are inserted in
order, and `bk-tree-built` is emitted carrying `dictionary.size`. -/
def buildBKTree (dict : List (Str × ℚ)) : Option BKNode × List EngineEvent :=
  match dict with
  | [] => (none, [])
  | (w, f) :: rest =>
    (some (rest.foldl (fun t p => insertIntoBKTree t p.1 p.2) (BKNode.node w f [])),
     [.bkTreeBuilt dict.length])

/-- Engine construction (`constructor` → `_initialize`): load the
dictionary from the given source outcome, build the tree, start with an
empty cache; returns the engine and the events in emission order. -/
def mkEngine (source : Except Unit (List Str)) (config : Config) :
    Engine × List EngineEvent :=
  match loadDictionary source with
  | (dict, maxFreq, events1) =>
    match buildBKTree dict with
    | (tree, events2) =>
      ({ config := config, dictionary := dict, maxFrequency := maxFreq,
         bkTree := tree, cache := [] },
       events1 ++ events2)

/-- The result list computed on the cache-miss, non-exact path of
`getCorrections` (search, rank, truncate). -/
def missResults (log1p : ℚ → ℚ) (e : Engine) (w : Str) : List Correction :=
  rankResults log1p e.maxFrequency (jsToLower w)
    (searchBKTree e.bkTree (jsToLower w) e.config.maxEditDistance)

/-- The engine state after the cache-miss, non-exact path of
`getCorrections`: evict if at capacity, then store the new results. -/
def missEngine (log1p : ℚ → ℚ) (e : Engine) (w : Str) : Engine :=
  let newCache := jsSet (cacheEvict e.cache e.config.cacheSize) (jsToLower w)
    (missResults log1p e w)
  { e with cache := newCache }

/-! ## Concrete instances used to exercise the theorems -/

/-- A two-word dictionary. -/
def exDict : List (Str × ℚ) := [("cat".toList, 3), ("dog".toList, 2)]

/-- A small hand-built BK-tree: root "cat", one child "dog" at branch
key 3 (their sift3 distance). -/
def exTree : BKNode :=
  BKNode.node "cat".toList 3 [(3, BKNode.node "dog".toList 2 [])]

/-- A single BK-tree leaf used to exercise the insertion equations. -/
def exChild : BKNode := BKNode.node "car".toList 5 []

/-- An engine over `exDict` with an empty cache. -/
def exEngine : Engine :=
  { config := { dictionarySize := 10, maxEditDistance := 2, cacheSize := 3 },
    dictionary := exDict, maxFrequency := 3,
    bkTree := (buildBKTree exDict).1, cache := [] }

/-- An engine configured with `cacheSize = 0`. -/
def zeroCacheEngine : Engine :=
  { config := { dictionarySize := 10, maxEditDistance := 2, cacheSize := 0 },
    dictionary := [], maxFrequency := 0, bkTree := none, cache := [] }

/-- An engine whose one-slot cache is full. -/
def fullCacheEngine : Engine :=
  { config := { dictionarySize := 10, maxEditDistance := 2, cacheSize := 1 },
    dictionary := [], maxFrequency := 0, bkTree := none,
    cache := [("ab".toList, [])] }

/-- An engine with an empty dictionary (every search comes back empty). -/
def emptyDictEngine : Engine :=
  { config := { dictionarySize := 10, maxEditDistance := 2, cacheSize := 5 },
    dictionary := [], maxFrequency := 0, bkTree := none, cache := [] }

/-- A successful word-source outcome with two ranked words. -/
def exSource : Except Unit (List Str) := .ok ["cat".toList, "dog".toList]

/-- An engine whose dictionary and tree come from the construction
pipeline run on `exSource`. -/
def exBuiltEngine : Engine :=
  { config := { dictionarySize := 10, maxEditDistance := 2, cacheSize := 3 },
    dictionary := (loadDictionary exSource).1,
    maxFrequency := (loadDictionary exSource).2.1,
    bkTree := (buildBKTree (loadDictionary exSource).1).1, cache := [] }

/-! ## Association-list lemmas -/

theorem jsGet_eq_none_iff {κ α : Type} [DecidableEq κ] (m : List (κ × α)) (q : κ) :
    jsGet m q = none ↔ q ∉ m.map Prod.fst := by
  induction m with
  | nil => simp [jsGet]
  | cons hd tl ih =>
    obtain ⟨k, v⟩ := hd
    by_cases h : k = q <;> simp [jsGet, h, ih] <;> tauto

theorem jsGet_mem {κ α : Type} [DecidableEq κ] (m : List (κ × α)) (q : κ) (v : α)
    (h : jsGet m q = some v) : (q, v) ∈ m := by
  induction m with
  | nil => simp [jsGet] at h
  | cons hd tl ih =>
    obtain ⟨k, w⟩ := hd
    by_cases hk : k = q
    · subst hk
      simp [jsGet] at h
      simp [h]
    · simp [jsGet, hk] at h
      simp [ih h]

theorem jsGet_set {κ α : Type} [DecidableEq κ] (m : List (κ × α)) (k q : κ) (v : α) :
    jsGet (jsSet m k v) q = if k = q then some v else jsGet m q := by
  induction m with
  | nil => by_cases h : k = q <;> simp [jsGet, jsSet, h]
  | cons hd tl ih =>
    obtain ⟨k0, w⟩ := hd
    by_cases h0 : k0 = k
    · subst h0
      by_cases h : k0 = q <;> simp [jsGet, jsSet, h]
    · by_cases h : k0 = q
      · subst h
        have hne : ¬(k = k0) := fun hh => h0 hh.symm
        simp [jsGet, jsSet, h0, hne]
      · simp [jsGet, jsSet, h0, h, ih]

theorem length_jsSet_le {κ α : Type} [DecidableEq κ] (m : List (κ × α)) (k : κ) (v : α) :
    (jsSet m k v).length ≤ m.length + 1 := by
  induction m with
  | nil => simp [jsSet]
  | cons hd tl ih =>
    obtain ⟨k0, w⟩ := hd
    by_cases h : k0 = k <;> simp [jsSet, h] <;> omega

theorem jsSet_ne_nil {κ α : Type} [DecidableEq κ] (m : List (κ × α)) (k : κ) (v : α) :
    jsSet m k v ≠ [] := by
  cases m with
  | nil => simp [jsSet]
  | cons hd tl =>
    obtain ⟨k0, w⟩ := hd
    by_cases h : k0 = k <;> simp [jsSet, h]

theorem mem_jsSet {κ α : Type} [DecidableEq κ] (m : List (κ × α)) (k : κ) (v : α)
    (p : κ × α) (h : p ∈ jsSet m k v) : p = (k, v) ∨ p ∈ m := by
  induction m with
  | nil => simpa [jsSet] using h
  | cons hd tl ih =>
    obtain ⟨k0, w⟩ := hd
    by_cases h0 : k0 = k
    · subst h0
      simp [jsSet] at h
      rcases h with h | h
      · left; simp [h]
      · right; simp [h]
    · simp [jsSet, h0] at h
      rcases h with h | h
      · right; simp [h]
      · rcases ih h with h | h
        · exact Or.inl h
        · right; simp [h]

theorem keys_jsSet_of_not_mem {κ α : Type} [DecidableEq κ] (m : List (κ × α))
    (k : κ) (v : α) (h : k ∉ m.map Prod.fst) :
    (jsSet m k v).map Prod.fst = m.map Prod.fst ++ [k] := by
  induction m with
  | nil => simp [jsSet]
  | cons hd tl ih =>
    obtain ⟨k0, w⟩ := hd
    simp only [List.map_cons, List.mem_cons, not_or] at h
    simp [jsSet, Ne.symm h.1, ih h.2]

theorem keys_jsSet_of_mem {κ α : Type} [DecidableEq κ] (m : List (κ × α))
    (k : κ) (v : α) (h : k ∈ m.map Prod.fst) :
    (jsSet m k v).map Prod.fst = m.map Prod.fst := by
  induction m with
  | nil => simp at h
  | cons hd tl ih =>
    obtain ⟨k0, w⟩ := hd
    by_cases h0 : k0 = k
    · simp [jsSet, h0]
    · simp [h0] at h
      rcases h with h | h
      · exact absurd h.symm h0
      · simp [jsSet, h0, ih (by simpa using h)]

theorem nodup_keys_jsSet {κ α : Type} [DecidableEq κ] (m : List (κ × α))
    (k : κ) (v : α) (h : (m.map Prod.fst).Nodup) :
    ((jsSet m k v).map Prod.fst).Nodup := by
  by_cases hm : k ∈ m.map Prod.fst
  · rw [keys_jsSet_of_mem m k v hm]; exact h
  · rw [keys_jsSet_of_not_mem m k v hm]
    exact ((List.perm_append_singleton k (m.map Prod.fst)).nodup_iff).mpr
      (List.nodup_cons.mpr ⟨hm, h⟩)

theorem length_jsDelete_cons {κ α : Type} [DecidableEq κ] (k : κ) (v : α)
    (r : List (κ × α)) : jsDelete ((k, v) :: r) k = r := by
  simp [jsDelete]

/-! ## The three paths of `getCorrections` -/

theorem getCorrections_hit (log1p : ℚ → ℚ) (e : Engine) (w : Str)
    (rs : List Correction) (h : jsGet e.cache (jsToLower w) = some rs) :
    getCorrections log1p e w = (rs, e) := by
  simp [getCorrections, h]

theorem getCorrections_exactPath (log1p : ℚ → ℚ) (e : Engine) (w : Str)
    (h1 : jsGet e.cache (jsToLower w) = none)
    (h2 : jsHas e.dictionary (jsToLower w) = true) :
    getCorrections log1p e w =
      ([{ word := w, distance := 0, confidence := 1, frequency := none }], e) := by
  simp [getCorrections, h1, h2]

theorem getCorrections_missPath (log1p : ℚ → ℚ) (e : Engine) (w : Str)
    (h1 : jsGet e.cache (jsToLower w) = none)
    (h2 : jsHas e.dictionary (jsToLower w) = false) :
    getCorrections log1p e w = (missResults log1p e w, missEngine log1p e w) := by
  simp [getCorrections, h1, h2, missResults, missEngine]

/-! ## Claim C1: exact dictionary hits -/

/-- C1.  If the lowercase form of the input is a dictionary key then
`getCorrections` returns exactly one record, with `distance = 0`,
`confidence = 1.0` and no `frequency` field, and the cache is left
unchanged.  The hypothesis `hdisj` — no cache key is a dictionary key —
holds in every reachable engine state: the cache starts empty, and
entries are only ever stored for queries that miss the dictionary. -/
theorem exactMatch_single_uncached (log1p : ℚ → ℚ) (e : Engine) (w : Str)
    (hdisj : ∀ p ∈ e.cache, jsGet e.dictionary p.1 = none)
    (hdict : jsHas e.dictionary (jsToLower w) = true) :
    (getCorrections log1p e w).1 =
      [{ word := w, distance := 0, confidence := 1, frequency := none }] ∧
    (getCorrections log1p e w).2.cache = e.cache := by
  have h1 : jsGet e.cache (jsToLower w) = none := by
    cases h : jsGet e.cache (jsToLower w) with
    | none => rfl
    | some rs =>
      have hd := hdisj _ (jsGet_mem _ _ _ h)
      simp [jsHas, hd] at hdict
  rw [getCorrections_exactPath log1p e w h1 hdict]
  exact ⟨rfl, rfl⟩

/-- C1 witness: the engine over `exDict` returns the single exact record
for the mixed-case query "Cat". -/
theorem exactMatch_single_uncached_witness :
    (∀ p ∈ exEngine.cache, jsGet exEngine.dictionary p.1 = none) ∧
    jsHas exEngine.dictionary (jsToLower "Cat".toList) = true ∧
    (getCorrections id exEngine "Cat".toList).1 =
      [{ word := "Cat".toList, distance := 0, confidence := 1, frequency := none }] ∧
    (getCorrections id exEngine "Cat".toList).2.cache = exEngine.cache := by
  refine ⟨by simp [exEngine], by decide, ?_⟩
  exact exactMatch_single_uncached id exEngine "Cat".toList
    (by simp [exEngine]) (by decide)

/-! ## Claim C7: repeated identical queries -/

/-- C7.  Two consecutive `getCorrections` calls with the same query
return structurally identical result lists, and the second call leaves
the whole engine state — in particular the cache size — unchanged. -/
theorem repeatQuery_idempotent (log1p : ℚ → ℚ) (e : Engine) (w : Str) :
    (getCorrections log1p (getCorrections log1p e w).2 w).1 =
      (getCorrections log1p e w).1 ∧
    (getCorrections log1p (getCorrections log1p e w).2 w).2 =
      (getCorrections log1p e w).2 ∧
    (getCorrections log1p (getCorrections log1p e w).2 w).2.cache.length =
      (getCorrections log1p e w).2.cache.length := by
  cases h : jsGet e.cache (jsToLower w) with
  | some rs =>
    rw [getCorrections_hit log1p e w rs h]
    rw [getCorrections_hit log1p e w rs h]
    exact ⟨rfl, rfl, rfl⟩
  | none =>
    cases h2 : jsHas e.dictionary (jsToLower w) with
    | true =>
      rw [getCorrections_exactPath log1p e w h h2]
      rw [getCorrections_exactPath log1p e w h h2]
      exact ⟨rfl, rfl, rfl⟩
    | false =>
      rw [getCorrections_missPath log1p e w h h2]
      have hhit : jsGet (missEngine log1p e w).cache (jsToLower w) =
          some (missResults log1p e w) := by
        simp [missEngine, jsGet_set]
      rw [getCorrections_hit log1p (missEngine log1p e w) w _ hhit]
      exact ⟨rfl, rfl, rfl⟩

/-! ## Claim C10: cache-miss results are stored, even when empty -/

/-- C10.  A query that misses both the cache and the dictionary has its
computed result list — empty or not — stored in the cache under the
lowercased query key, and an immediate repeat of the query is answered
from the cache with that very list, without further state change. -/
theorem missQuery_stores_results (log1p : ℚ → ℚ) (e : Engine) (w : Str)
    (h1 : jsGet e.cache (jsToLower w) = none)
    (h2 : jsHas e.dictionary (jsToLower w) = false) :
    jsGet (getCorrections log1p e w).2.cache (jsToLower w) =
      some (getCorrections log1p e w).1 ∧
    getCorrections log1p (getCorrections log1p e w).2 w =
      ((getCorrections log1p e w).1, (getCorrections log1p e w).2) := by
  rw [getCorrections_missPath log1p e w h1 h2]
  have hhit : jsGet (missEngine log1p e w).cache (jsToLower w) =
      some (missResults log1p e w) := by
    simp [missEngine, jsGet_set]
  exact ⟨hhit, getCorrections_hit log1p (missEngine log1p e w) w _ hhit⟩

/-- C10 witness: on the empty-dictionary engine, the unknown query "xyz"
computes the empty suggestion list, which is nevertheless cached. -/
theorem missQuery_stores_results_witness :
    jsGet emptyDictEngine.cache (jsToLower "xyz".toList) = none ∧
    jsHas emptyDictEngine.dictionary (jsToLower "xyz".toList) = false ∧
    jsGet (getCorrections id emptyDictEngine "xyz".toList).2.cache
        (jsToLower "xyz".toList) = some (getCorrections id emptyDictEngine "xyz".toList).1 ∧
    (getCorrections id emptyDictEngine "xyz".toList).1 = [] := by
  refine ⟨by decide, by decide, ?_, by decide⟩
  exact (missQuery_stores_results id emptyDictEngine "xyz".toList
    (by decide) (by decide)).1

/-! ## Claim C3: cache bound and FIFO eviction -/

/-- C3 counterexample to the claim as stated: with `cacheSize = 0` a
single non-exact query leaves one cache entry, so the cache does not hold
at most `cacheSize` entries after every call. -/
theorem cacheBound_counterexample :
    ¬ ((getCorrections id zeroCacheEngine "x".toList).2.cache.length ≤
        zeroCacheEngine.config.cacheSize) := by
  decide

/-- C3 (amended: for `cacheSize ≥ 1`, assuming the bound and key
uniqueness held before the call — both hold in every reachable state of
such a configuration).  After the call the cache again holds at most
`cacheSize` entries with distinct keys, and when a non-exact,
non-cached query arrives with the cache full, the earliest-inserted key
(the head of the insertion order) is evicted — absent afterwards — while
the new query key is present: FIFO, not LRU. -/
theorem cacheBound_fifoEviction (log1p : ℚ → ℚ) (e : Engine) (w : Str)
    (hsize : 1 ≤ e.config.cacheSize)
    (hbound : e.cache.length ≤ e.config.cacheSize)
    (hnodup : (e.cache.map Prod.fst).Nodup) :
    (getCorrections log1p e w).2.cache.length ≤ e.config.cacheSize ∧
    ((getCorrections log1p e w).2.cache.map Prod.fst).Nodup ∧
    (∀ k v r, jsGet e.cache (jsToLower w) = none →
      jsHas e.dictionary (jsToLower w) = false →
      e.cache = (k, v) :: r → e.cache.length = e.config.cacheSize →
      jsGet (getCorrections log1p e w).2.cache k = none ∧
      jsGet (getCorrections log1p e w).2.cache (jsToLower w) ≠ none) := by
  cases h : jsGet e.cache (jsToLower w) with
  | some rs =>
    rw [getCorrections_hit log1p e w rs h]
    exact ⟨hbound, hnodup, fun k v r hnone => by simp [h] at hnone⟩
  | none =>
    cases h2 : jsHas e.dictionary (jsToLower w) with
    | true =>
      rw [getCorrections_exactPath log1p e w h h2]
      exact ⟨hbound, hnodup, fun k v r _ hfalse => by simp [h2] at hfalse⟩
    | false =>
      rw [getCorrections_missPath log1p e w h h2]
      have hlow : jsToLower w ∉ e.cache.map Prod.fst :=
        (jsGet_eq_none_iff e.cache (jsToLower w)).mp h
      have hevict : (cacheEvict e.cache e.config.cacheSize).length + 1 ≤
          e.config.cacheSize ∧
          ((cacheEvict e.cache e.config.cacheSize).map Prod.fst).Nodup ∧
          jsToLower w ∉ (cacheEvict e.cache e.config.cacheSize).map Prod.fst := by
        by_cases hfull : e.config.cacheSize ≤ e.cache.length
        · have hlen : e.cache.length = e.config.cacheSize := le_antisymm hbound hfull
          cases hc : e.cache with
          | nil => rw [hc] at hlen; simp at hlen; omega
          | cons p r =>
            obtain ⟨k0, v0⟩ := p
            rw [hc] at hlen hnodup hlow
            simp only [List.map_cons, List.nodup_cons] at hnodup
            simp only [List.map_cons, List.mem_cons, not_or] at hlow
            simp only [List.length_cons] at hlen
            have : cacheEvict ((k0, v0) :: r) e.config.cacheSize = r := by
              unfold cacheEvict
              rw [if_pos (by simp only [List.length_cons]; omega)]
              exact length_jsDelete_cons k0 v0 r
            rw [this]
            exact ⟨by omega, hnodup.2, hlow.2⟩
        · have : cacheEvict e.cache e.config.cacheSize = e.cache := by
            unfold cacheEvict
            rw [if_neg hfull]
          rw [this]
          exact ⟨by omega, hnodup, hlow⟩
      refine ⟨?_, ?_, ?_⟩
      · calc (missEngine log1p e w).cache.length
            ≤ (cacheEvict e.cache e.config.cacheSize).length + 1 :=
              length_jsSet_le _ _ _
          _ ≤ e.config.cacheSize := hevict.1
      · exact nodup_keys_jsSet _ _ _ hevict.2.1
      · intro k v r hnone h2x hcons hlen
        have hkmem : k ∈ e.cache.map Prod.fst := by rw [hcons]; simp
        have hkne : ¬ (jsToLower w = k) := fun hh => hlow (hh ▸ hkmem)
        have hevr : cacheEvict e.cache e.config.cacheSize = r := by
          rw [hcons]
          unfold cacheEvict
          rw [if_pos (by rw [← hcons, hlen])]
          exact length_jsDelete_cons k v r
        have hknr : k ∉ r.map Prod.fst := by
          rw [hcons] at hnodup
          simp only [List.map_cons, List.nodup_cons] at hnodup
          exact hnodup.1
        constructor
        · show jsGet (missEngine log1p e w).cache k = none
          have : (missEngine log1p e w).cache =
              jsSet (cacheEvict e.cache e.config.cacheSize) (jsToLower w)
                (missResults log1p e w) := rfl
          rw [this, jsGet_set, if_neg hkne, hevr]
          exact (jsGet_eq_none_iff r k).mpr hknr
        · show jsGet (missEngine log1p e w).cache (jsToLower w) ≠ none
          have : (missEngine log1p e w).cache =
              jsSet (cacheEvict e.cache e.config.cacheSize) (jsToLower w)
                (missResults log1p e w) := rfl
          rw [this, jsGet_set, if_pos rfl]
          simp

/-- C3 witness: a full one-slot cache evicts its only (earliest) entry
"ab" to make room for the new query "x". -/
theorem cacheBound_fifoEviction_witness :
    1 ≤ fullCacheEngine.config.cacheSize ∧
    (getCorrections id fullCacheEngine "x".toList).2.cache.length ≤
      fullCacheEngine.config.cacheSize ∧
    jsGet (getCorrections id fullCacheEngine "x".toList).2.cache "ab".toList = none ∧
    jsGet (getCorrections id fullCacheEngine "x".toList).2.cache
      (jsToLower "x".toList) ≠ none := by
  have h := cacheBound_fifoEviction id fullCacheEngine "x".toList
    (by decide) (by decide) (by decide)
  exact ⟨by decide, h.1,
    (h.2.2 "ab".toList [] [] (by decide) (by decide) rfl (by decide)).1,
    (h.2.2 "ab".toList [] [] (by decide) (by decide) rfl (by decide)).2⟩

/-! ## Claim C2: at most five results, sorted by non-increasing confidence -/

theorem mem_jsDelete {κ α : Type} [DecidableEq κ] (m : List (κ × α)) (q : κ)
    (p : κ × α) (h : p ∈ jsDelete m q) : p ∈ m := by
  induction m with
  | nil => simpa [jsDelete] using h
  | cons hd tl ih =>
    obtain ⟨k, v⟩ := hd
    by_cases hk : k = q
    · rw [hk] at h
      rw [length_jsDelete_cons q v tl] at h
      simp [h]
    · simp [jsDelete, hk] at h
      rcases h with h | h
      · simp [h]
      · simp [ih h]

theorem mem_cacheEvict (cache : List (Str × List Correction)) (s : Nat)
    (p : Str × List Correction) (h : p ∈ cacheEvict cache s) : p ∈ cache := by
  unfold cacheEvict at h
  by_cases hfull : s ≤ cache.length
  · rw [if_pos hfull] at h
    cases hc : cache with
    | nil => rw [hc] at h; simpa using h
    | cons q r =>
      obtain ⟨k, v⟩ := q
      rw [hc] at h
      exact mem_jsDelete _ _ _ h
  · rwa [if_neg hfull] at h

theorem missResults_length_le (log1p : ℚ → ℚ) (e : Engine) (w : Str) :
    (missResults log1p e w).length ≤ 5 := by
  unfold missResults rankResults
  simp [List.length_take]

theorem missResults_pairwise (log1p : ℚ → ℚ) (e : Engine) (w : Str) :
    (missResults log1p e w).Pairwise confGe := by
  unfold missResults rankResults
  exact (List.sorted_insertionSort confGe _).sublist (List.take_sublist 5 _)

/-- C2.  Every `getCorrections` result list has length at most 5 and is
pairwise ordered by non-increasing confidence, on all three paths.  The
hypothesis — every cached list already satisfies the bound and order —
holds in every reachable state (the cache starts empty and, as the final
conjunct shows, the property is preserved by every call). -/
theorem results_bounded_sorted (log1p : ℚ → ℚ) (e : Engine) (w : Str)
    (hwf : ∀ p ∈ e.cache, p.2.length ≤ 5 ∧ p.2.Pairwise confGe) :
    (getCorrections log1p e w).1.length ≤ 5 ∧
    (getCorrections log1p e w).1.Pairwise confGe ∧
    ∀ p ∈ (getCorrections log1p e w).2.cache,
      p.2.length ≤ 5 ∧ p.2.Pairwise confGe := by
  cases h : jsGet e.cache (jsToLower w) with
  | some rs =>
    rw [getCorrections_hit log1p e w rs h]
    have := hwf _ (jsGet_mem _ _ _ h)
    exact ⟨this.1, this.2, hwf⟩
  | none =>
    cases h2 : jsHas e.dictionary (jsToLower w) with
    | true =>
      rw [getCorrections_exactPath log1p e w h h2]
      exact ⟨by simp, List.pairwise_singleton _ _, hwf⟩
    | false =>
      rw [getCorrections_missPath log1p e w h h2]
      refine ⟨missResults_length_le log1p e w, missResults_pairwise log1p e w, ?_⟩
      intro p hp
      have : (missEngine log1p e w).cache =
          jsSet (cacheEvict e.cache e.config.cacheSize) (jsToLower w)
            (missResults log1p e w) := rfl
      rw [this] at hp
      rcases mem_jsSet _ _ _ _ hp with hp | hp
      · rw [hp]
        exact ⟨missResults_length_le log1p e w, missResults_pairwise log1p e w⟩
      · exact hwf _ (mem_cacheEvict _ _ _ hp)

/-- C2 witness: the search path on `exEngine` for the non-dictionary
query "kat". -/
theorem results_bounded_sorted_witness :
    (∀ p ∈ exEngine.cache, p.2.length ≤ 5 ∧ p.2.Pairwise confGe) ∧
    (getCorrections id exEngine "kat".toList).1.length ≤ 5 ∧
    (getCorrections id exEngine "kat".toList).1.Pairwise confGe := by
  have h := results_bounded_sorted id exEngine "kat".toList (by simp [exEngine])
  exact ⟨by simp [exEngine], h.1, h.2.1⟩

/-! ## The sift3 distance: bounds and degenerate cases -/

/-- Faithfulness of the fuelled loop body: `sift3Loop` satisfies exactly
the equation of the `while` loop of `_sift3Distance` — recheck the
guard, compare the characters at the offset cursors, either credit `lcs`
or rescan the offsets, and advance the cursor. -/
theorem sift3Loop_eq (s1 s2 : Str) (mo c o1 o2 lcs : Nat) :
    sift3Loop s1 s2 mo c o1 o2 lcs =
      if c + o1 < s1.length ∧ c + o2 < s2.length then
        if s1.getD (c + o1) ' ' = s2.getD (c + o2) ' ' then
          sift3Loop s1 s2 mo (c + 1) o1 o2 (lcs + 1)
        else
          sift3Loop s1 s2 mo (c + 1) (scanOffsets s1 s2 c 0 mo).1
            (scanOffsets s1 s2 c 0 mo).2 lcs
      else lcs := by
  unfold sift3Loop
  cases hf : s1.length - c with
  | zero =>
    rw [if_neg (by omega : ¬(c + o1 < s1.length ∧ c + o2 < s2.length))]
    rfl
  | succ fuel =>
    have h1 : s1.length - (c + 1) = fuel := by omega
    rw [h1]
    simp only [sift3Go]

/-- The `lcs` counter can grow by at most one per loop step, and the loop
runs at most `min |s1| |s2| - c` more steps. -/
theorem sift3Loop_le (s1 s2 : Str) (mo c o1 o2 lcs : Nat) :
    sift3Loop s1 s2 mo c o1 o2 lcs ≤ lcs + (min s1.length s2.length - c) := by
  rw [sift3Loop_eq]
  split
  next h =>
    split
    next heq =>
      have ih := sift3Loop_le s1 s2 mo (c + 1) o1 o2 (lcs + 1)
      omega
    next hne =>
      have ih := sift3Loop_le s1 s2 mo (c + 1)
        (scanOffsets s1 s2 c 0 mo).1 (scanOffsets s1 s2 c 0 mo).2 lcs
      omega
  next h => omega
termination_by s1.length - c
decreasing_by all_goals omega

/-- On two identical strings the loop matches at every position: it adds
exactly the remaining length to `lcs`. -/
theorem sift3Loop_self (s : Str) (mo c lcs : Nat) :
    sift3Loop s s mo c 0 0 lcs = lcs + (s.length - c) := by
  rw [sift3Loop_eq]
  split
  next h =>
    rw [if_pos rfl]
    have ih := sift3Loop_self s mo (c + 1) (lcs + 1)
    omega
  next h => omega
termination_by s.length - c
decreasing_by all_goals omega

/-- If the loop achieves the maximal possible `lcs` on equal-length
strings, then every position from the cursor on matches exactly. -/
theorem sift3Loop_max_imp_eq (s1 s2 : Str) (mo : Nat)
    (hl : s1.length = s2.length) (c lcs : Nat)
    (hmax : sift3Loop s1 s2 mo c 0 0 lcs = lcs + (s1.length - c)) :
    ∀ j, c ≤ j → j < s1.length → s1.getD j ' ' = s2.getD j ' ' := by
  intro j hcj hjl
  have hc : c < s1.length := lt_of_le_of_lt hcj hjl
  rw [sift3Loop_eq] at hmax
  rw [if_pos (by omega : c + 0 < s1.length ∧ c + 0 < s2.length)] at hmax
  by_cases heq : s1.getD (c + 0) ' ' = s2.getD (c + 0) ' '
  · rw [if_pos heq] at hmax
    rcases Nat.eq_or_lt_of_le hcj with hcj' | hcj'
    · rw [← hcj']
      simpa using heq
    · exact sift3Loop_max_imp_eq s1 s2 mo hl (c + 1) (lcs + 1)
        (by omega) j hcj' hjl
  · rw [if_neg heq] at hmax
    have hb := sift3Loop_le s1 s2 mo (c + 1)
      (scanOffsets s1 s2 c 0 mo).1 (scanOffsets s1 s2 c 0 mo).2 lcs
    omega
termination_by s1.length - c
decreasing_by all_goals omega

/-- The sift3 distance vanishes exactly on equal strings: `lcs` can only
reach `(|a| + |b|) / 2` when the lengths agree and every position
matched, and conversely equal strings match everywhere. -/
theorem sift3Distance_eq_zero_iff (a b : Str) :
    sift3Distance a b = 0 ↔ a = b := by
  constructor
  · intro h
    unfold sift3Distance at h
    by_cases ha : a.length = 0
    · rw [if_pos ha] at h
      have hb : b.length = 0 := by exact_mod_cast h
      rw [List.length_eq_zero] at ha hb
      rw [ha, hb]
    · rw [if_neg ha] at h
      by_cases hb : b.length = 0
      · rw [if_pos hb] at h
        exact absurd (by exact_mod_cast h) ha
      · rw [if_neg hb] at h
        have hL : (a.length + b.length : ℚ) = 2 * (sift3Loop a b 5 0 0 0 0 : ℚ) := by
          linarith [h]
        have hLn : a.length + b.length = 2 * sift3Loop a b 5 0 0 0 0 := by
          exact_mod_cast hL
        have hbound := sift3Loop_le a b 5 0 0 0 0
        have hlen : a.length = b.length := by omega
        have hmax : sift3Loop a b 5 0 0 0 0 = 0 + (a.length - 0) := by omega
        have hpt := sift3Loop_max_imp_eq a b 5 hlen 0 0 hmax
        apply List.ext_getElem hlen
        intro i h1 h2
        have := hpt i (Nat.zero_le i) h1
        rwa [List.getD_eq_getElem a ' ' h1, List.getD_eq_getElem b ' ' h2] at this
  · intro h
    rw [h]
    unfold sift3Distance
    by_cases hb : b.length = 0
    · simp only [if_pos hb]
      exact_mod_cast hb
    · simp only [if_neg hb]
      rw [sift3Loop_self b 5 0 0]
      simp only [Nat.zero_add, Nat.sub_zero]
      ring

/-- The sift3 distance is never negative: `lcs` is at most
`min |a| |b| ≤ (|a| + |b|) / 2`. -/
theorem sift3Distance_nonneg (a b : Str) : 0 ≤ sift3Distance a b := by
  unfold sift3Distance
  by_cases ha : a.length = 0
  · rw [if_pos ha]
    exact_mod_cast Nat.zero_le _
  · rw [if_neg ha]
    by_cases hb : b.length = 0
    · rw [if_pos hb]
      exact_mod_cast Nat.zero_le _
    · rw [if_neg hb]
      have hbound := sift3Loop_le a b 5 0 0 0 0
      have h2 : 2 * sift3Loop a b 5 0 0 0 0 ≤ a.length + b.length := by omega
      have h2q : (2 : ℚ) * (sift3Loop a b 5 0 0 0 0 : ℚ) ≤
          (a.length : ℚ) + b.length := by exact_mod_cast h2
      linarith

/-! ## Claim C6: distance contract and boundary values -/

/-- C6.  The distance is non-negative for all inputs; an empty first
argument yields the length of the second and vice versa; a string has
distance zero to itself; and the three boundary examples evaluate as the
spec states. -/
theorem distance_contract :
    (∀ a b : Str, 0 ≤ sift3Distance a b) ∧
    (∀ b : Str, sift3Distance [] b = b.length) ∧
    (∀ a : Str, sift3Distance a [] = a.length) ∧
    (∀ s : Str, sift3Distance s s = 0) ∧
    sift3Distance "".toList "cat".toList = 3 ∧
    sift3Distance "cat".toList "".toList = 3 ∧
    sift3Distance "cat".toList "cat".toList = 0 := by
  have hemp : ∀ b : Str, sift3Distance [] b = b.length := by
    intro b
    simp [sift3Distance]
  have hemp2 : ∀ a : Str, sift3Distance a [] = a.length := by
    intro a
    unfold sift3Distance
    by_cases ha : a.length = 0
    · rw [if_pos ha]
      simp [List.length_eq_zero.mp ha]
    · rw [if_neg ha]
      simp
  have hself : ∀ s : Str, sift3Distance s s = 0 := fun s =>
    (sift3Distance_eq_zero_iff s s).mpr rfl
  refine ⟨sift3Distance_nonneg, hemp, hemp2, hself, ?_, ?_, hself _⟩
  · rw [show "".toList = ([] : Str) from rfl, hemp]
    norm_num
  · rw [show "".toList = ([] : Str) from rfl, hemp2]
    norm_num

/-! ## The search loop: faithfulness equations and soundness -/

theorem BKNode.count_pos (n : BKNode) : 1 ≤ n.count := by
  cases n with
  | node w f cs =>
    rw [BKNode.count]
    omega

theorem countList_filter_le (p : ℚ × BKNode → Bool) :
    ∀ cs : List (ℚ × BKNode),
      (((cs.filter p).map Prod.snd).map BKNode.count).sum ≤ countList cs := by
  intro cs
  induction cs with
  | nil => simp [countList]
  | cons hd tl ih =>
    obtain ⟨k, c⟩ := hd
    simp only [List.map_map] at ih ⊢
    by_cases h : p (k, c) <;> simp [List.filter_cons, h, countList] <;> omega

/-- A dequeue step strictly decreases the total node count of the queue. -/
theorem sum_step_le (n : BKNode) (rest : List BKNode) (p : ℚ × BKNode → Bool) :
    ((rest ++ (n.children.filter p).map Prod.snd).map BKNode.count).sum + 1 ≤
      ((n :: rest).map BKNode.count).sum := by
  simp only [List.map_append, List.sum_append, List.map_cons, List.sum_cons]
  have henq := countList_filter_le p n.children
  have hc : n.count = 1 + countList n.children := by
    cases n with
    | node w f cs => rfl
  omega

/-- Any fuel at least the queue's total node count produces the same
search result: the fuel is only a termination device. -/
theorem searchFuel_congr (query : Str) (maxD : ℚ) :
    ∀ f1 f2 queue results,
      ((queue.map BKNode.count).sum ≤ f1) → ((queue.map BKNode.count).sum ≤ f2) →
      searchFuel query maxD f1 queue results = searchFuel query maxD f2 queue results := by
  intro f1
  induction f1 with
  | zero =>
    intro f2 queue results h1 h2
    cases queue with
    | nil => cases f2 <;> rfl
    | cons n rest =>
      exfalso
      have := BKNode.count_pos n
      simp only [List.map_cons, List.sum_cons] at h1
      omega
  | succ a ih =>
    intro f2 queue results h1 h2
    cases queue with
    | nil => cases f2 <;> rfl
    | cons n rest =>
      cases f2 with
      | zero =>
        exfalso
        have := BKNode.count_pos n
        simp only [List.map_cons, List.sum_cons] at h2
        omega
      | succ b =>
        simp only [searchFuel]
        have hstep := sum_step_le n rest
          (keyInRange (sift3Distance n.word query) maxD)
        simp only [List.map_cons, List.sum_cons] at h1 h2
        simp only [List.map_cons, List.sum_cons] at hstep
        apply ih
        · omega
        · omega

/-- The search loop on an empty queue returns the accumulated results. -/
theorem searchGo_nil (query : Str) (maxD : ℚ) (results : List Candidate) :
    searchGo query maxD [] results = results := rfl

/-- The dequeue-step equation of the search loop: the head node of the
FIFO queue is processed — its word is appended to the results exactly
when its distance to the query is at most `maxDistance` — and exactly
those children whose recorded branch key lies in
`[d - maxDistance, d + maxDistance]` are enqueued at the back. -/
theorem searchGo_cons (query : Str) (maxD : ℚ) (n : BKNode)
    (rest : List BKNode) (results : List Candidate) :
    searchGo query maxD (n :: rest) results =
      searchGo query maxD
        (rest ++ (n.children.filter
          (keyInRange (sift3Distance n.word query) maxD)).map Prod.snd)
        (if sift3Distance n.word query ≤ maxD then
          results ++ [⟨n.word, sift3Distance n.word query, n.frequency⟩]
        else results) := by
  unfold searchGo
  have hpos := BKNode.count_pos n
  have h1 : ((n :: rest).map BKNode.count).sum =
      (((n :: rest).map BKNode.count).sum - 1) + 1 := by
    simp only [List.map_cons, List.sum_cons]
    omega
  rw [h1]
  simp only [searchFuel]
  apply searchFuel_congr
  · have hstep := sum_step_le n rest
      (keyInRange (sift3Distance n.word query) maxD)
    omega
  · exact le_refl _

theorem mem_words_self (n : BKNode) : (n.word, n.frequency) ∈ n.words := by
  cases n with
  | node w f cs =>
    rw [BKNode.words]
    exact List.mem_cons_self _ _

theorem mem_wordsList_of_mem (cs : List (ℚ × BKNode)) (k : ℚ) (c : BKNode)
    (h : (k, c) ∈ cs) : ∀ x ∈ c.words, x ∈ wordsList cs := by
  induction cs with
  | nil => simp at h
  | cons hd tl ih =>
    obtain ⟨k0, c0⟩ := hd
    intro x hx
    rw [wordsList]
    rcases List.mem_cons.mp h with h | h
    · obtain ⟨hk, hc⟩ := Prod.mk.injEq .. ▸ h
      cases h
      exact List.mem_append.mpr (Or.inl hx)
    · exact List.mem_append.mpr (Or.inr (ih h x hx))

theorem mem_words_of_child (n : BKNode) (x : Str × ℚ) (k : ℚ) (c : BKNode)
    (h : (k, c) ∈ n.children) (hx : x ∈ c.words) : x ∈ n.words := by
  cases n with
  | node w f cs =>
    rw [BKNode.words]
    exact List.mem_cons_of_mem _ (mem_wordsList_of_mem cs k c h x hx)

/-- Soundness of the fuelled loop: every produced candidate was either
accumulated already or is a word of a tree in the queue, recorded with
its exact distance to the query, which is at most `maxDistance`. -/
theorem searchFuel_sound (query : Str) (maxD : ℚ) :
    ∀ fuel queue results r, r ∈ searchFuel query maxD fuel queue results →
      r ∈ results ∨ ∃ p : Str × ℚ, (∃ n ∈ queue, p ∈ n.words) ∧
        r = ⟨p.1, sift3Distance p.1 query, p.2⟩ ∧
        sift3Distance p.1 query ≤ maxD := by
  intro fuel
  induction fuel with
  | zero =>
    intro queue results r hr
    cases queue with
    | nil => exact Or.inl hr
    | cons n rest => exact Or.inl hr
  | succ a ih =>
    intro queue results r hr
    cases queue with
    | nil => exact Or.inl hr
    | cons n rest =>
      simp only [searchFuel] at hr
      rcases ih _ _ r hr with h | ⟨p, ⟨nq, hnq, hp⟩, hre, hle⟩
      · by_cases hd : sift3Distance n.word query ≤ maxD
        · rw [if_pos hd] at h
          rcases List.mem_append.mp h with h | h
          · exact Or.inl h
          · right
            refine ⟨(n.word, n.frequency), ⟨n, List.mem_cons_self _ _,
              mem_words_self n⟩, ?_, ?_⟩
            · rw [List.mem_singleton.mp h]
            · rw [show ((n.word, n.frequency) : Str × ℚ).1 = n.word from rfl]
              exact hd
        · rw [if_neg hd] at h
          exact Or.inl h
      · rcases List.mem_append.mp hnq with hq | hq
        · exact Or.inr ⟨p, ⟨nq, List.mem_cons_of_mem _ hq, hp⟩, hre, hle⟩
        · right
          obtain ⟨⟨k, c⟩, hkc, hcq⟩ := List.mem_map.mp hq
          have hmemcs : (k, c) ∈ n.children := List.mem_of_mem_filter hkc
          refine ⟨p, ⟨n, List.mem_cons_self _ _, ?_⟩, hre, hle⟩
          have hpc : p ∈ c.words := by
            rw [show c = nq from hcq]
            exact hp
          exact mem_words_of_child n p k c hmemcs hpc

/-- Soundness at the tree level: every search result is a (word,
frequency) stored in the tree, with its recorded distance equal to the
sift3 distance to the query and within the radius. -/
theorem searchBKTree_sound (tree : Option BKNode) (query : Str) (maxD : ℚ)
    (r : Candidate) (hr : r ∈ searchBKTree tree query maxD) :
    ∃ t, tree = some t ∧ (r.word, r.frequency) ∈ t.words ∧
      r.distance = sift3Distance r.word query ∧ r.distance ≤ maxD := by
  cases tree with
  | none => simp [searchBKTree] at hr
  | some t =>
    rcases searchFuel_sound query maxD _ _ _ r hr with h | ⟨p, ⟨n, hn, hp⟩, hre, hle⟩
    · simp at h
    · rw [List.mem_singleton.mp hn] at hp
      refine ⟨t, rfl, ?_, ?_, ?_⟩
      · rw [hre]
        exact hp
      · rw [hre]
      · rw [hre]
        exact hle

/-! ## Claim C4: BK-tree search — FIFO traversal, pruning, soundness -/

/-- C4.  The search dequeues from the front of a FIFO queue seeded with
the root (`searchGo_nil` / `searchGo_cons` conjuncts): a dequeued node is
added to the results exactly when its distance to the query is at most
`maxDistance`, and a child is enqueued exactly when its recorded branch
key lies in `[d - maxDistance, d + maxDistance]`.  Consequently (third
conjunct) every returned record is a tree word within `maxDistance`,
carrying its exact computed distance. -/
theorem search_fifo_pruning_sound (query : Str) (maxD : ℚ) :
    (∀ results, searchGo query maxD [] results = results) ∧
    (∀ n rest results, searchGo query maxD (n :: rest) results =
      searchGo query maxD
        (rest ++ (n.children.filter
          (keyInRange (sift3Distance n.word query) maxD)).map Prod.snd)
        (if sift3Distance n.word query ≤ maxD then
          results ++ [⟨n.word, sift3Distance n.word query, n.frequency⟩]
        else results)) ∧
    (∀ tree r, r ∈ searchBKTree tree query maxD →
      ∃ t, tree = some t ∧ (r.word, r.frequency) ∈ t.words ∧
        r.distance = sift3Distance r.word query ∧ r.distance ≤ maxD) :=
  ⟨fun results => searchGo_nil query maxD results,
   fun n rest results => searchGo_cons query maxD n rest results,
   fun tree r hr => searchBKTree_sound tree query maxD r hr⟩

/-- C4 witness: searching `exTree` for its own root word "cat" with
radius 2 returns the root (distance 0) and prunes the "dog" subtree
(branch key 3 lies outside `[0 - 2, 0 + 2]`). -/
theorem search_fifo_pruning_sound_witness :
    (⟨"cat".toList, 0, 3⟩ : Candidate) ∈ searchBKTree (some exTree) "cat".toList 2 ∧
    ∃ t, some exTree = some t ∧
      ("cat".toList, (3 : ℚ)) ∈ t.words ∧
      (0 : ℚ) = sift3Distance "cat".toList "cat".toList ∧ (0 : ℚ) ≤ 2 := by
  have hself : sift3Distance "cat".toList "cat".toList = 0 :=
    (sift3Distance_eq_zero_iff _ _).mpr rfl
  have hmem : (⟨"cat".toList, 0, 3⟩ : Candidate) ∈
      searchBKTree (some exTree) "cat".toList 2 := by
    show (⟨"cat".toList, 0, 3⟩ : Candidate) ∈ searchGo "cat".toList 2 [exTree] []
    rw [show exTree =
      BKNode.node "cat".toList 3 [(3, BKNode.node "dog".toList 2 [])] from rfl]
    rw [searchGo_cons]
    simp only [BKNode.word, BKNode.children, BKNode.frequency, hself]
    norm_num [keyInRange, searchGo_nil]
  have h := (search_fifo_pruning_sound "cat".toList 2).2.2 (some exTree) _ hmem
  obtain ⟨t, ht, hw, hd, hle⟩ := h
  exact ⟨hmem, t, ht, hw, hd, hle⟩

/-! ## Claim C5: BK-tree insertion -/

theorem insertChild_get_none (cs : List (ℚ × BKNode)) (d : ℚ) (w : Str) (f : ℚ)
    (h : jsGet cs d = none) :
    insertChild cs d w f = cs ++ [(d, BKNode.node w f [])] := by
  induction cs with
  | nil => simp [insertChild]
  | cons hd tl ih =>
    obtain ⟨k, c⟩ := hd
    by_cases hk : k = d
    · rw [hk] at h
      simp [jsGet] at h
    · simp only [jsGet, if_neg hk] at h
      simp [insertChild, hk, ih h]

theorem insertChild_get_some (cs : List (ℚ × BKNode)) (d : ℚ) (w : Str) (f : ℚ)
    (c : BKNode) (h : jsGet cs d = some c) :
    insertChild cs d w f = jsSet cs d (insertIntoBKTree c w f) := by
  induction cs with
  | nil => simp [jsGet] at h
  | cons hd tl ih =>
    obtain ⟨k, c0⟩ := hd
    by_cases hk : k = d
    · subst hk
      simp only [jsGet, eq_self_iff_true, if_true, Option.some.injEq] at h
      simp [insertChild, jsSet, h]
    · simp only [jsGet, if_neg hk] at h
      simp [insertChild, jsSet, hk, ih h]

/-- C5.  Insertion into a non-empty tree, at any visited node
`node nw nf cs` with `d` the sift3 distance from the node's word to the
new word: `d = 0` discards the new word leaving the node unchanged; a
child recorded at exactly key `d` receives the recursive insertion; and
otherwise the new word is attached as a fresh leaf under key `d`. -/
theorem insert_descent_cases (nw : Str) (nf : ℚ) (cs : List (ℚ × BKNode))
    (w : Str) (f : ℚ) :
    (sift3Distance nw w = 0 →
      insertIntoBKTree (BKNode.node nw nf cs) w f = BKNode.node nw nf cs) ∧
    (∀ c, sift3Distance nw w ≠ 0 → jsGet cs (sift3Distance nw w) = some c →
      insertIntoBKTree (BKNode.node nw nf cs) w f =
        BKNode.node nw nf (jsSet cs (sift3Distance nw w) (insertIntoBKTree c w f))) ∧
    (sift3Distance nw w ≠ 0 → jsGet cs (sift3Distance nw w) = none →
      insertIntoBKTree (BKNode.node nw nf cs) w f =
        BKNode.node nw nf (cs ++ [(sift3Distance nw w, BKNode.node w f [])])) := by
  refine ⟨?_, ?_, ?_⟩
  · intro h0
    rw [insertIntoBKTree, if_pos h0]
  · intro c hne hget
    rw [insertIntoBKTree, if_neg hne, insertChild_get_some cs _ w f c hget]
  · intro hne hget
    rw [insertIntoBKTree, if_neg hne, insertChild_get_none cs _ w f hget]

/-- C5 witness: inserting "cap" (distance 1 from root "cat") descends
into the existing child at key 1. -/
theorem insert_descent_cases_witness :
    sift3Distance "cat".toList "cap".toList ≠ 0 ∧
    jsGet [((1 : ℚ), exChild)] (sift3Distance "cat".toList "cap".toList) =
      some exChild ∧
    insertIntoBKTree (BKNode.node "cat".toList 3 [((1 : ℚ), exChild)])
        "cap".toList 7 =
      BKNode.node "cat".toList 3
        (jsSet [((1 : ℚ), exChild)] (sift3Distance "cat".toList "cap".toList)
          (insertIntoBKTree exChild "cap".toList 7)) := by
  have hL : sift3Loop "cat".toList "cap".toList 5 0 0 0 0 = 2 := by decide
  have hd : sift3Distance "cat".toList "cap".toList = 1 := by
    unfold sift3Distance
    rw [hL, show ("cat".toList.length) = 3 from rfl,
      show ("cap".toList.length) = 3 from rfl]
    norm_num
  have hne : sift3Distance "cat".toList "cap".toList ≠ 0 := by
    rw [hd]
    norm_num
  have hget : jsGet [((1 : ℚ), exChild)] (sift3Distance "cat".toList "cap".toList) =
      some exChild := by
    rw [hd]
    simp [jsGet]
  exact ⟨hne, hget,
    (insert_descent_cases "cat".toList 3 [((1 : ℚ), exChild)] "cap".toList 7).2.1
      exChild hne hget⟩

/-! ## Construction: tree size, dictionary shape, lifecycle events -/

mutual

/-- Insertion adds no word other than the inserted one. -/
theorem mem_words_insert (n : BKNode) (w : Str) (f : ℚ) :
    ∀ p ∈ (insertIntoBKTree n w f).words, p = (w, f) ∨ p ∈ n.words := by
  cases n with
  | node nw nf cs =>
    intro p hp
    rw [insertIntoBKTree] at hp
    by_cases h0 : sift3Distance nw w = 0
    · rw [if_pos h0] at hp
      exact Or.inr hp
    · rw [if_neg h0] at hp
      rw [BKNode.words] at hp
      rcases List.mem_cons.mp hp with hp | hp
      · right
        rw [BKNode.words, hp]
        exact List.mem_cons_self _ _
      · rcases mem_wordsList_insertChild cs (sift3Distance nw w) w f p hp with h | h
        · exact Or.inl h
        · right
          rw [BKNode.words]
          exact List.mem_cons_of_mem _ h

/-- `insertChild` adds no word other than the inserted one. -/
theorem mem_wordsList_insertChild (cs : List (ℚ × BKNode)) (d : ℚ) (w : Str)
    (f : ℚ) :
    ∀ p ∈ wordsList (insertChild cs d w f), p = (w, f) ∨ p ∈ wordsList cs := by
  cases cs with
  | nil =>
    intro p hp
    rw [insertChild] at hp
    simp only [wordsList, BKNode.words, List.append_nil] at hp
    rcases List.mem_cons.mp hp with hp | hp
    · exact Or.inl hp
    · simp at hp
  | cons hd tl =>
    obtain ⟨k, c⟩ := hd
    intro p hp
    rw [insertChild] at hp
    by_cases hk : k = d
    · rw [if_pos hk] at hp
      rw [wordsList] at hp
      rcases List.mem_append.mp hp with hp | hp
      · rcases mem_words_insert c w f p hp with h | h
        · exact Or.inl h
        · right
          rw [wordsList]
          exact List.mem_append.mpr (Or.inl h)
      · right
        rw [wordsList]
        exact List.mem_append.mpr (Or.inr hp)
    · rw [if_neg hk] at hp
      rw [wordsList] at hp
      rcases List.mem_append.mp hp with hp | hp
      · right
        rw [wordsList]
        exact List.mem_append.mpr (Or.inl hp)
      · rcases mem_wordsList_insertChild tl d w f p hp with h | h
        · exact Or.inl h
        · right
          rw [wordsList]
          exact List.mem_append.mpr (Or.inr h)

end

mutual

/-- Inserting a word absent from the tree adds exactly one node (the
sift3 distance to every stored word is nonzero because the metric
vanishes only on equal strings). -/
theorem count_insert (n : BKNode) (w : Str) (f : ℚ)
    (h : ∀ p ∈ n.words, p.1 ≠ w) :
    (insertIntoBKTree n w f).count = n.count + 1 := by
  cases n with
  | node nw nf cs =>
    have hnw : nw ≠ w := by
      have hm := h (nw, nf) (by rw [BKNode.words]; exact List.mem_cons_self _ _)
      exact hm
    have h0 : sift3Distance nw w ≠ 0 := fun hz =>
      hnw ((sift3Distance_eq_zero_iff nw w).mp hz)
    rw [insertIntoBKTree, if_neg h0, BKNode.count, BKNode.count,
      countList_insertChild cs (sift3Distance nw w) w f
        (fun p hp => h p (by rw [BKNode.words]; exact List.mem_cons_of_mem _ hp))]
    omega

/-- The children-list version of `count_insert`. -/
theorem countList_insertChild (cs : List (ℚ × BKNode)) (d : ℚ) (w : Str) (f : ℚ)
    (h : ∀ p ∈ wordsList cs, p.1 ≠ w) :
    countList (insertChild cs d w f) = countList cs + 1 := by
  cases cs with
  | nil =>
    rw [insertChild]
    simp [countList, BKNode.count]
  | cons hd tl =>
    obtain ⟨k, c⟩ := hd
    rw [insertChild]
    by_cases hk : k = d
    · rw [if_pos hk, countList, countList,
        count_insert c w f (fun p hp => h p
          (by rw [wordsList]; exact List.mem_append.mpr (Or.inl hp)))]
      omega
    · rw [if_neg hk, countList, countList,
        countList_insertChild tl d w f (fun p hp => h p
          (by rw [wordsList]; exact List.mem_append.mpr (Or.inr hp)))]
      omega

end

/-- Folding insertions of entries with fresh, pairwise-distinct keys over
a tree adds exactly one node per entry, and sources every tree word from
the entries or the original tree. -/
theorem foldl_insert_props (entries : List (Str × ℚ)) :
    ∀ t : BKNode,
      (∀ p ∈ entries, ∀ q ∈ t.words, q.1 ≠ p.1) →
      (entries.map Prod.fst).Nodup →
      (entries.foldl (fun tr p => insertIntoBKTree tr p.1 p.2) t).count =
        t.count + entries.length ∧
      (∀ q ∈ (entries.foldl (fun tr p => insertIntoBKTree tr p.1 p.2) t).words,
        q ∈ entries ∨ q ∈ t.words) := by
  induction entries with
  | nil =>
    intro t h hnd
    exact ⟨by simp, fun q hq => Or.inr hq⟩
  | cons p rest ih =>
    obtain ⟨pw, pf⟩ := p
    intro t h hnd
    simp only [List.foldl_cons]
    have hw' : ∀ q ∈ (insertIntoBKTree t pw pf).words,
        q = (pw, pf) ∨ q ∈ t.words :=
      mem_words_insert t pw pf
    have hcount' : (insertIntoBKTree t pw pf).count = t.count + 1 :=
      count_insert t pw pf
        (fun q hq => h (pw, pf) (List.mem_cons_self _ _) q hq)
    simp only [List.map_cons, List.nodup_cons] at hnd
    have hd : ∀ p' ∈ rest, ∀ q ∈ (insertIntoBKTree t pw pf).words,
        q.1 ≠ p'.1 := by
      intro p' hp' q hq
      rcases hw' q hq with hq' | hq'
      · rw [hq']
        intro hcontra
        exact hnd.1 (by
          rw [show pw = ((pw, pf) : Str × ℚ).1 from rfl, hcontra]
          exact List.mem_map_of_mem Prod.fst hp')
      · exact h p' (List.mem_cons_of_mem _ hp') q hq'
    obtain ⟨hc, hwsub⟩ := ih (insertIntoBKTree t pw pf) hd hnd.2
    constructor
    · rw [hc, hcount']
      simp only [List.length_cons]
      omega
    · intro q hq
      rcases hwsub q hq with hq' | hq'
      · exact Or.inl (List.mem_cons_of_mem _ hq')
      · rcases hw' q hq' with h1 | h1
        · exact Or.inl (by rw [h1]; exact List.mem_cons_self _ _)
        · exact Or.inr h1

/-- `buildBKTree` on a non-empty dictionary with distinct keys: root is
the first entry, the node count equals the dictionary size, every tree
word is a dictionary entry, and `bk-tree-built` is emitted carrying the
dictionary size. -/
theorem buildBKTree_props (dict : List (Str × ℚ))
    (hnd : (dict.map Prod.fst).Nodup) (hne : dict ≠ []) :
    ∃ t, (buildBKTree dict).1 = some t ∧ t.count = dict.length ∧
      (∀ q ∈ t.words, q ∈ dict) ∧
      (buildBKTree dict).2 = [EngineEvent.bkTreeBuilt dict.length] := by
  cases dict with
  | nil => exact absurd rfl hne
  | cons p rest =>
    obtain ⟨w, f⟩ := p
    simp only [List.map_cons, List.nodup_cons] at hnd
    have hroot : ∀ q ∈ (BKNode.node w f []).words, q = (w, f) := by
      intro q hq
      rw [BKNode.words] at hq
      rcases List.mem_cons.mp hq with hq | hq
      · exact hq
      · simp [wordsList] at hq
    have hd : ∀ p' ∈ rest, ∀ q ∈ (BKNode.node w f []).words, q.1 ≠ p'.1 := by
      intro p' hp' q hq
      rw [hroot q hq]
      intro hcontra
      exact hnd.1 (by
        rw [show w = ((w, f) : Str × ℚ).1 from rfl, hcontra]
        exact List.mem_map_of_mem Prod.fst hp')
    obtain ⟨hc, hws⟩ := foldl_insert_props rest (BKNode.node w f []) hd hnd.2
    refine ⟨_, rfl, ?_, ?_, rfl⟩
    · rw [hc]
      rw [BKNode.count]
      simp only [countList, List.length_cons]
      omega
    · intro q hq
      rcases hws q hq with hq' | hq'
      · exact List.mem_cons_of_mem _ hq'
      · rw [hroot q hq']
        exact List.mem_cons_self _ _

theorem mem_ingestPopular (mf : ℚ) :
    ∀ ws i dict (p : Str × ℚ), p ∈ ingestPopular mf ws i dict →
      p ∈ dict ∨ validWord p.1 = true := by
  intro ws
  induction ws with
  | nil =>
    intro i dict p hp
    rw [ingestPopular] at hp
    exact Or.inl hp
  | cons w rest ih =>
    intro i dict p hp
    rw [ingestPopular] at hp
    rcases ih (i + 1) _ p hp with h | h
    · by_cases hv : validWord w = true
      · rw [if_pos hv] at h
        rcases mem_jsSet _ _ _ p h with h' | h'
        · right
          rw [h']
          exact hv
        · exact Or.inl h'
      · rw [if_neg hv] at h
        exact Or.inl h
    · exact Or.inr h

theorem nodup_keys_ingestPopular (mf : ℚ) :
    ∀ ws i dict, (dict.map (Prod.fst (β := ℚ))).Nodup →
      ((ingestPopular mf ws i dict).map Prod.fst).Nodup := by
  intro ws
  induction ws with
  | nil =>
    intro i dict h
    rw [ingestPopular]
    exact h
  | cons w rest ih =>
    intro i dict h
    rw [ingestPopular]
    apply ih
    by_cases hv : validWord w = true
    · rw [if_pos hv]
      exact nodup_keys_jsSet _ _ _ h
    · rw [if_neg hv]
      exact h

theorem mem_foldl_jsSet (v : ℚ) :
    ∀ (ts : List Str) (dict : List (Str × ℚ)) (p : Str × ℚ),
      p ∈ ts.foldl (fun d t => jsSet d t v) dict → p ∈ dict ∨ p.1 ∈ ts := by
  intro ts
  induction ts with
  | nil =>
    intro dict p hp
    exact Or.inl hp
  | cons t rest ih =>
    intro dict p hp
    simp only [List.foldl_cons] at hp
    rcases ih _ p hp with h | h
    · rcases mem_jsSet _ _ _ p h with h' | h'
      · right
        rw [h']
        exact List.mem_cons_self _ _
      · exact Or.inl h'
    · exact Or.inr (List.mem_cons_of_mem _ h)

theorem nodup_keys_foldl_jsSet (v : ℚ) :
    ∀ (ts : List Str) (dict : List (Str × ℚ)),
      (dict.map Prod.fst).Nodup →
      ((ts.foldl (fun d t => jsSet d t v) dict).map Prod.fst).Nodup := by
  intro ts
  induction ts with
  | nil =>
    intro dict h
    exact h
  | cons t rest ih =>
    intro dict h
    simp only [List.foldl_cons]
    exact ih _ (nodup_keys_jsSet _ _ _ h)

theorem foldl_jsSet_ne_nil (v : ℚ) :
    ∀ (ts : List Str) (dict : List (Str × ℚ)), ts ≠ [] →
      ts.foldl (fun d t => jsSet d t v) dict ≠ [] := by
  intro ts
  induction ts with
  | nil =>
    intro dict h
    exact absurd rfl h
  | cons t rest ih =>
    intro dict _
    simp only [List.foldl_cons]
    cases hr : rest with
    | nil =>
      simp only [List.foldl_nil]
      exact jsSet_ne_nil _ _ _
    | cons t2 r2 =>
      rw [← hr]
      exact ih _ (by rw [hr]; exact List.cons_ne_nil _ _)

/-- The dictionary produced by a successful load: distinct keys, at least
the boost list present (non-empty), every key lowercase `[a-z]+`, and
`dictionary-loaded` emitted once carrying the dictionary size. -/
theorem loadDictionary_ok_props (ws : List Str) :
    ((loadDictionary (.ok ws)).1.map Prod.fst).Nodup ∧
    (loadDictionary (.ok ws)).1 ≠ [] ∧
    (∀ p ∈ (loadDictionary (.ok ws)).1,
      p.1.all (fun ch => 'a' ≤ ch && ch ≤ 'z') = true) ∧
    (loadDictionary (.ok ws)).2.2 =
      [EngineEvent.dictionaryLoaded (loadDictionary (.ok ws)).1.length] := by
  unfold loadDictionary
  dsimp only
  unfold builtDictionary
  refine ⟨?_, ?_, ?_, rfl⟩
  · exact nodup_keys_foldl_jsSet _ _ _
      (nodup_keys_ingestPopular _ ws 0 [] (by simp))
  · exact foldl_jsSet_ne_nil _ _ _ (by simp [technicalTerms])
  · intro p hp
    rcases mem_foldl_jsSet _ _ _ p hp with h | h
    · rcases mem_ingestPopular _ ws 0 [] p h with h' | h'
      · simp at h'
      · unfold validWord at h'
        rw [Bool.and_eq_true] at h'
        exact h'.2
    · have hterms : ∀ t ∈ technicalTerms,
          t.all (fun ch => 'a' ≤ ch && ch ≤ 'z') = true := by decide
      exact hterms _ h

/-- Projections of `mkEngine`. -/
theorem mkEngine_fields (source : Except Unit (List Str)) (cfg : Config) :
    (mkEngine source cfg).1.dictionary = (loadDictionary source).1 ∧
    (mkEngine source cfg).1.bkTree = (buildBKTree (loadDictionary source).1).1 ∧
    (mkEngine source cfg).1.cache = [] ∧
    (mkEngine source cfg).2 =
      (loadDictionary source).2.2 ++ (buildBKTree (loadDictionary source).1).2 := by
  rcases hx : loadDictionary source with ⟨d, mf, ev⟩
  rcases hy : buildBKTree d with ⟨tr, ev2⟩
  refine ⟨?_, ?_, ?_, ?_⟩ <;> simp [mkEngine, hx, hy]

/-! ## Claim C8: lifecycle signals during construction -/

/-- C8 counterexample to the claim as stated: when the external word
source throws, the `catch` only logs — the dictionary stays empty,
`buildBKTree` returns before emitting, and NO signal at all is emitted,
contradicting "exactly once ... for every outcome of the external word
source". -/
theorem construction_signals_counterexample :
    ¬ ∃ n m, (mkEngine (.error ())
        { dictionarySize := 10000, maxEditDistance := 2, cacheSize := 1000 }).2 =
      [EngineEvent.dictionaryLoaded n, EngineEvent.bkTreeBuilt m] := by
  rintro ⟨n, m, h⟩
  rw [show (mkEngine (.error ())
      { dictionarySize := 10000, maxEditDistance := 2, cacheSize := 1000 }).2 =
    [] from rfl] at h
  simp at h

/-- C8 (amended: restricted to a successful word-source outcome — on
failure nothing is emitted).  Construction emits exactly two signals, in
order: `dictionary-loaded` carrying the ingested word count (the
dictionary size) and `bk-tree-built` carrying the node count of the
built tree — the emitted `dictionary.size` does equal the tree's node
count, because the sift3 distance vanishes only on equal strings, so no
dictionary word is ever dropped as a duplicate during the build. -/
theorem construction_signals (ws : List Str) (cfg : Config) :
    ∃ t, (mkEngine (.ok ws) cfg).1.bkTree = some t ∧
      t.count = (mkEngine (.ok ws) cfg).1.dictionary.length ∧
      (mkEngine (.ok ws) cfg).2 =
        [EngineEvent.dictionaryLoaded
           (mkEngine (.ok ws) cfg).1.dictionary.length,
         EngineEvent.bkTreeBuilt
           (mkEngine (.ok ws) cfg).1.dictionary.length] := by
  obtain ⟨hnd, hne, hlow, hev⟩ := loadDictionary_ok_props ws
  obtain ⟨t, ht, hc, hw, hev2⟩ := buildBKTree_props _ hnd hne
  obtain ⟨hdic, hb, hcache, hevents⟩ := mkEngine_fields (.ok ws) cfg
  refine ⟨t, ?_, ?_, ?_⟩
  · rw [hb, ht]
  · rw [hdic, hc]
  · rw [hevents, hev, hev2, hdic]
    rfl

/-! ## Claim C9: case preservation of the returned word -/

/-- C9.  For an engine whose dictionary and tree come from the
construction pipeline: an exact dictionary hit returns the original
input with its case preserved (the `word` field is the query as typed,
not the lowercase form used for the lookup), while every record produced
by the tree-search path carries a lowercase `[a-z]+` dictionary word. -/
theorem result_word_casing (log1p : ℚ → ℚ) (src : Except Unit (List Str))
    (e : Engine) (w : Str)
    (hdict : e.dictionary = (loadDictionary src).1)
    (htree : e.bkTree = (buildBKTree (loadDictionary src).1).1)
    (hmiss : jsGet e.cache (jsToLower w) = none) :
    (jsHas e.dictionary (jsToLower w) = true →
      (getCorrections log1p e w).1 =
        [{ word := w, distance := 0, confidence := 1, frequency := none }]) ∧
    (jsHas e.dictionary (jsToLower w) = false →
      ∀ r ∈ (getCorrections log1p e w).1,
        r.word ∈ e.dictionary.map Prod.fst ∧
        r.word.all (fun ch => 'a' ≤ ch && ch ≤ 'z') = true) := by
  constructor
  · intro h2
    rw [getCorrections_exactPath log1p e w hmiss h2]
  · intro h2 r hr
    rw [getCorrections_missPath log1p e w hmiss h2] at hr
    obtain ⟨cnd, hcnd, hword⟩ : ∃ cnd ∈ searchBKTree e.bkTree (jsToLower w)
        e.config.maxEditDistance, r.word = cnd.word := by
      unfold missResults rankResults at hr
      have hr2 := List.take_subset 5 _ hr
      have hr3 := (List.perm_insertionSort confGe _).mem_iff.mp hr2
      obtain ⟨cnd, hc, heq⟩ := List.mem_map.mp hr3
      refine ⟨cnd, hc, ?_⟩
      rw [← heq]
      rfl
    cases src with
    | error u =>
      rw [htree] at hcnd
      rw [show (buildBKTree (loadDictionary (.error u)).1).1 = none from rfl]
        at hcnd
      simp [searchBKTree] at hcnd
    | ok ws =>
      obtain ⟨hnd, hne, hlow, _⟩ := loadDictionary_ok_props ws
      obtain ⟨t, ht, _, hws, _⟩ := buildBKTree_props _ hnd hne
      rw [htree] at hcnd
      obtain ⟨t', ht', hmem, _, _⟩ :=
        searchBKTree_sound _ _ _ _ hcnd
      rw [ht] at ht'
      have htt : t = t' := by
        injection ht'
      have hq := hws _ (htt ▸ hmem)
      constructor
      · rw [hword, hdict]
        exact List.mem_map_of_mem Prod.fst hq
      · rw [hword]
        exact hlow _ hq

/-- C9 witness: on the engine built from `exSource`, the mixed-case
query "Hello" hits the dictionary entry "hello" (a boost-list word) and
the returned record preserves the original casing "Hello". -/
theorem result_word_casing_witness :
    exBuiltEngine.dictionary = (loadDictionary exSource).1 ∧
    jsGet exBuiltEngine.cache (jsToLower "Hello".toList) = none ∧
    jsHas exBuiltEngine.dictionary (jsToLower "Hello".toList) = true ∧
    (getCorrections id exBuiltEngine "Hello".toList).1 =
      [{ word := "Hello".toList, distance := 0, confidence := 1,
         frequency := none }] := by
  refine ⟨rfl, rfl, ?_, ?_⟩
  · decide
  · exact (result_word_casing id exSource exBuiltEngine "Hello".toList
      rfl rfl rfl).1 (by decide)

end AutoCorrect
